import Mathlib

/-!
# Verification of `lope_utils.py` (lopecode extraction utilities)

Shallow embedding of the two-stage extraction pipeline of
`src/tools/lope_utils.py`:

* the Markup Extractor (`LopeModuleParser`: `handle_starttag`,
  `handle_endtag`, `handle_data`), modelled as a fold of the handler
  functions over an event stream;
* the Cell Scanner (`extract_cells`), modelled as a deterministic scan over
  the character list, with the regular expression
  `const\s+(_\w+)\s*=\s*function\*?\s*\w*\s*\(([^)]*)\)\s*\{`
  realised as a maximal-munch matcher (the pattern has no backtracking:
  the character classes of adjacent variable-width pieces are disjoint);
* the command functions `list_cells`, `read_cell`, `read_module`, modelled
  as pure functions from the extracted module mapping to printed lines and
  an exit code.

Strings are modelled as `List Char`; character classes are the ASCII
fragments of Python's `\s` and `\w`.
-/

namespace LopeUtils

set_option maxRecDepth 10000

/-- ASCII fragment of Python's `\s` character class. -/
def isSpaceChar (c : Char) : Bool :=
  c == ' ' || c == '\t' || c == '\n' || c == '\r' || c == Char.ofNat 11 || c == Char.ofNat 12

/-- ASCII fragment of Python's `\w` character class. -/
def isWordChar (c : Char) : Bool :=
  c.isAlphanum || c == '_'

/-- Consume a literal from the front of a character list; `none` on mismatch. -/
def eatLit : List Char → List Char → Option (List Char)
  | [], s => some s
  | _ :: _, [] => none
  | p :: ps, c :: cs => if c = p then eatLit ps cs else none

/-- The literal `const` of the cell pattern. -/
def cConst : List Char := ['c', 'o', 'n', 's', 't']

/-- The literal `function` of the cell pattern. -/
def cFunction : List Char := ['f', 'u', 'n', 'c', 't', 'i', 'o', 'n']

/-- Match the `\s+` after `const`. -/
def afterWs1 (s : List Char) : Option (List Char) :=
  match s.takeWhile isSpaceChar with
  | [] => none
  | _ => some (s.dropWhile isSpaceChar)

/-- Match the capture group `(_\w+)`: an underscore then one or more word
characters.  Returns the captured name and the rest. -/
def afterName (s : List Char) : Option (List Char × List Char) :=
  match s with
  | '_' :: s3 =>
    match s3.takeWhile isWordChar with
    | [] => none
    | w => some ('_' :: w, s3.dropWhile isWordChar)
  | _ => none

/-- Match `\s*=`. -/
def afterEq (s : List Char) : Option (List Char) :=
  match s.dropWhile isSpaceChar with
  | '=' :: s6 => some s6
  | _ => none

/-- Match `\s*function`. -/
def afterFunction (s : List Char) : Option (List Char) :=
  eatLit cFunction (s.dropWhile isSpaceChar)

/-- Match `\*?` (an optional generator star). -/
def afterStar (s : List Char) : List Char :=
  match s with
  | '*' :: r => r
  | _ => s

/-- Match `\s*\w*\s*` (optional repeated function name). -/
def afterOptName (s : List Char) : List Char :=
  ((s.dropWhile isSpaceChar).dropWhile isWordChar).dropWhile isSpaceChar

/-- Match `\(([^)]*)\)`: returns the captured parameter text and the rest. -/
def afterParams (s : List Char) : Option (List Char × List Char) :=
  match s with
  | '(' :: s13 =>
    match s13.dropWhile (fun c => c != ')') with
    | ')' :: s15 => some (s13.takeWhile (fun c => c != ')'), s15)
    | _ => none
  | _ => none

/-- Match `\s*\{`: the opening brace ending the header. -/
def afterBrace (s : List Char) : Option (List Char) :=
  match s.dropWhile isSpaceChar with
  | '{' :: s17 => some s17
  | _ => none

/-- Try to match the full cell-header pattern
`const\s+(_\w+)\s*=\s*function\*?\s*\w*\s*\(([^)]*)\)\s*\{` at the front of
`s`.  On success returns the captured name, the captured parameter text, and
the rest of the input after the opening brace. -/
def matchCellHeader (s : List Char) : Option (List Char × List Char × List Char) :=
  (eatLit cConst s).bind fun s1 =>
  (afterWs1 s1).bind fun s2 =>
  (afterName s2).bind fun ns =>
  (afterEq ns.2).bind fun s6 =>
  (afterFunction s6).bind fun s8 =>
  (afterParams (afterOptName (afterStar s8))).bind fun ds =>
  (afterBrace ds.2).map fun rest => (ns.1, ds.1, rest)

/-- The brace-balancing loop of `extract_cells` (lines 98-105): starting from
depth `d` at absolute position `pos`, step through `t` incrementing on `{`
and decrementing on `}`, stopping the moment the depth reaches `0` or the
text runs out; returns the final absolute position. -/
def braceScanAux : List Char → Nat → Nat → Nat
  | _, 0, pos => pos
  | [], _ + 1, pos => pos
  | c :: cs, d + 1, pos =>
    braceScanAux cs (if c = '{' then d + 2 else if c = '}' then d else d + 1) (pos + 1)

/-- Python `str.strip()` (ASCII whitespace fragment). -/
def pyStrip (s : List Char) : List Char :=
  ((s.dropWhile isSpaceChar).reverse.dropWhile isSpaceChar).reverse

/-- Python `str.split(',')`: split on every comma; `""` splits to `[""]`. -/
def splitCommas : List Char → List (List Char)
  | [] => [[]]
  | c :: cs =>
    if c = ',' then [] :: splitCommas cs
    else
      match splitCommas cs with
      | [] => [[c]]
      | h :: t => (c :: h) :: t

/-- Dependency-list parsing of `extract_cells` line 93:
`[d.strip() for d in deps_str.split(',') if d.strip()]`. -/
def parseDeps (s : List Char) : List String :=
  ((((splitCommas s).map pyStrip).filter (fun d => !d.isEmpty)).map fun d => String.mk d)

/-- One extracted cell descriptor (the dict built at lines 109-115). -/
structure Cell where
  name : String
  dependencies : List String
  start : Nat
  endPos : Nat
  preview : String
deriving DecidableEq, Repr

/-- Preview construction of line 114:
`content[:200] + "..." if len(content) > 200 else content`. -/
def previewOf (content : List Char) : String :=
  if content.length > 200 then String.mk (content.take 200) ++ "..." else String.mk content

/-- The `re.finditer` loop of `extract_cells`: `suffix` is the unscanned tail
of the module text and `pos` its absolute offset.  On a failed header match
the scan advances one character; on a success it emits a descriptor and
resumes at the end of the header match (Python resumes at `match.end()`). -/
def scanCellsAux : Nat → List Char → Nat → List Cell
  | 0, _, _ => []
  | _ + 1, [], _ => []
  | fuel + 1, c :: cs, pos =>
    match matchCellHeader (c :: cs) with
    | none => scanCellsAux fuel cs (pos + 1)
    | some (name, deps, rest) =>
      let consumed := (c :: cs).length - rest.length
      let headerEnd := pos + consumed
      let stop := braceScanAux rest 1 headerEnd
      { name := String.mk name
        dependencies := parseDeps deps
        start := pos
        endPos := stop
        preview := previewOf ((c :: cs).take (stop - pos)) } :: scanCellsAux fuel rest headerEnd

/-- `extract_cells` (lines 76-117): all cell descriptors of a module text,
in scan order. -/
def extract_cells (module_source : String) : List Cell :=
  scanCellsAux (module_source.data.length + 1) module_source.data 0

/-! ### Concrete example modules (from the spec's testable properties) -/

/-- A single well-formed cell definition. -/
def srcSimple : String := "const _x = function _x(a, b)\x7breturn(a+b)\x7d"

/-- The descriptor extracted from `srcSimple`. -/
def cellSimple : Cell := ⟨"_x", ["a", "b"], 0, 41, srcSimple⟩

/-- A cell body containing nested braces. -/
def srcNested : String := "const _y = function()\x7breturn(\x7ba:1,b:\x7bc:2\x7d\x7d)\x7d"

/-- The descriptor extracted from `srcNested`. -/
def cellNested : Cell := ⟨"_y", [], 0, 44, srcNested⟩

/-- A cell whose full text has exactly 201 characters. -/
def srcLong : String :=
  "const _long = function()\x7b" ++ String.mk (List.replicate 175 'x') ++ "\x7d"

/-- The descriptor extracted from `srcLong`. -/
def cellLong : Cell := ⟨"_long", [], 0, 201, String.mk (srcLong.data.take 200) ++ "..."⟩

/-- A cell whose full text has exactly 200 characters. -/
def srcLong200 : String :=
  "const _long = function()\x7b" ++ String.mk (List.replicate 174 'x') ++ "\x7d"

/-- The descriptor extracted from `srcLong200`. -/
def cellLong200 : Cell := ⟨"_long", [], 0, 200, srcLong200⟩

/-- The dependency-parsing example `function(a, , b)`. -/
def srcDeps : String := "const _x = function(a, , b)\x7b\x7d"

/-- The descriptor extracted from `srcDeps`. -/
def cellDeps : Cell := ⟨"_x", ["a", "b"], 0, 29, srcDeps⟩

/-- A truncated module: the opening brace is never closed. -/
def srcTrunc : String := "const _t = function()\x7b no close"

/-- The descriptor extracted from `srcTrunc`. -/
def cellTrunc : Cell := ⟨"_t", [], 0, 31, srcTrunc⟩

/-- Two cells: `_abc` (substring match for `_ab`) earlier in scan order
than `_ab` (exact match). -/
def srcTwoCells : String :=
  "const _abc = function()\x7b1\x7d const _ab = function()\x7b2\x7d"

/-! ## The Markup Extractor (`LopeModuleParser`)

The class holds `modules : Dict[str, str]`, `files : List[Dict]` and the
`current_*` fields.  A Python `dict` keyed by strings is modelled as an
association list with insertion-order update semantics (`dictInsert`); the
stdlib HTML tokenizer is external to the repository, so the parser is driven
by an explicit event stream (start-tag, end-tag, data). -/

/-- One file-attachment record (lines 51-57). -/
structure FileRec where
  id : String
  module : String
  file : String
  mime : String
  size : Nat
deriving DecidableEq, Repr

/-- The mutable fields of `LopeModuleParser` (lines 28-34). -/
structure ParserState where
  modules : List (String × String)
  files : List FileRec
  current_tag : Option String
  current_attrs : List (String × String)
  current_data : List String
deriving DecidableEq, Repr

/-- The fresh parser built by `__init__`. -/
def initState : ParserState := ⟨[], [], none, [], []⟩

/-- Python `dict(attrs).get(k, d)`: the last pair with key `k` wins. -/
def attrsGet (attrs : List (String × String)) (k d : String) : String :=
  match attrs.reverse.find? (fun p => p.1 = k) with
  | some p => p.2
  | none => d

/-- Python `dict` assignment `m[k] = v`: an existing key keeps its position
and gets the new value; a new key is appended. -/
def dictInsert (m : List (String × String)) (k v : String) : List (String × String) :=
  if m.any (fun p => p.1 = k) then m.map (fun p => if p.1 = k then (k, v) else p)
  else m ++ [(k, v)]

/-- Python `m.get(k)` / `k in m` on the dict model. -/
def dictGet? (m : List (String × String)) (k : String) : Option String :=
  (m.find? (fun p => p.1 = k)).map (fun p => p.2)

/-- `handle_starttag` (lines 36-39). -/
def handle_starttag (st : ParserState) (tag : String)
    (attrs : List (String × String)) : ParserState :=
  { st with current_tag := some tag, current_attrs := attrs, current_data := [] }

/-- `handle_endtag` (lines 41-61). -/
def handle_endtag (st : ParserState) (tag : String) : ParserState :=
  let st1 :=
    if tag = "script" ∧ st.current_tag = some "script" then
      let script_type := attrsGet st.current_attrs "type" ""
      let content := String.join st.current_data
      if script_type = "lope-module" then
        { st with modules := dictInsert st.modules (attrsGet st.current_attrs "id" "unknown") content }
      else if script_type = "lope-file" then
        { st with files := st.files ++
            [{ id := attrsGet st.current_attrs "id" ""
               module := attrsGet st.current_attrs "module" ""
               file := attrsGet st.current_attrs "file" ""
               mime := attrsGet st.current_attrs "mime" ""
               size := content.length }] }
      else st
    else st
  { st1 with current_tag := none, current_attrs := [], current_data := [] }

/-- `handle_data` (lines 63-65). -/
def handle_data (st : ParserState) (data : String) : ParserState :=
  if st.current_tag = some "script" then
    { st with current_data := st.current_data ++ [data] }
  else st

/-- One tokenizer callback, as delivered by the stdlib `HTMLParser`. -/
inductive Event where
  | startTag (tag : String) (attrs : List (String × String))
  | endTag (tag : String)
  | data (s : String)
deriving DecidableEq, Repr

/-- Dispatch one event to the corresponding handler. -/
def handleEvent (st : ParserState) : Event → ParserState
  | .startTag tag attrs => handle_starttag st tag attrs
  | .endTag tag => handle_endtag st tag
  | .data s => handle_data st s

/-- Feed a whole event stream to a fresh parser (`parser.feed(text)`). -/
def feedEvents (evs : List Event) : ParserState :=
  evs.foldl handleEvent initState

/-- A top-level fragment of a document: a non-nested element with its text
children, or loose text between elements. -/
inductive Item where
  | element (tag : String) (attrs : List (String × String)) (texts : List String)
  | text (s : String)
deriving DecidableEq, Repr

/-- The tokenizer events produced by one fragment. -/
def Item.events : Item → List Event
  | .element tag attrs texts => Event.startTag tag attrs :: texts.map Event.data ++ [Event.endTag tag]
  | .text s => [Event.data s]

/-- The tokenizer events of a whole document. -/
def docEvents (d : List Item) : List Event :=
  (d.map Item.events).flatten

/-- Parse a whole document (`parse_notebook` without the file I/O). -/
def parseDoc (d : List Item) : ParserState :=
  feedEvents (docEvents d)

/-- Process all events of a single fragment. -/
def processItem (st : ParserState) (it : Item) : ParserState :=
  it.events.foldl handleEvent st

/-- Is this fragment a module block (`<script type="lope-module">`)? -/
def isModuleBlock : Item → Bool
  | .element tag attrs _ => tag == "script" && attrsGet attrs "type" "" == "lope-module"
  | .text _ => false

/-- The id a module block is recorded under (default `"unknown"`). -/
def moduleIdOf : Item → String
  | .element _ attrs _ => attrsGet attrs "id" "unknown"
  | .text _ => "unknown"

/-- The content a module block is recorded with. -/
def moduleContentOf : Item → String
  | .element _ _ texts => String.join texts
  | .text s => s

/-- The ids of the module blocks of a document, in order. -/
def moduleIds (d : List Item) : List String :=
  (d.filter isModuleBlock).map moduleIdOf

/-- The content of the last module block of `d` with id `i`, if any. -/
def lastModuleContent (d : List Item) (i : String) : Option String :=
  ((d.filter isModuleBlock).reverse.find? (fun it => moduleIdOf it = i)).map moduleContentOf

/-- The `(id, content)` pairs recorded for the module blocks of a document,
in document order. -/
def moduleEntries (d : List Item) : List (String × String) :=
  (d.filter isModuleBlock).map (fun it => (moduleIdOf it, moduleContentOf it))

/-! ## The command surface (`list_cells`, `read_cell`, `read_module`)

Each command is modelled as a pure function from the extracted module
mapping and its arguments to the list of printed lines and the exit code
(`0` for a normal return, `1` for `sys.exit(1)`). -/

/-- A single-quote character (used by the f-string error messages). -/
def sq : String := String.singleton (Char.ofNat 39)

/-- Does `needle` occur in `hay` as a contiguous substring (Python `in`)? -/
def startsWithL : List Char → List Char → Bool
  | [], _ => true
  | _ :: _, [] => false
  | a :: as, b :: bs => a == b && startsWithL as bs

/-- Python `needle in hay` for strings, on character lists. -/
def occursIn (needle : List Char) : List Char → Bool
  | [] => startsWithL needle []
  | c :: cs => startsWithL needle (c :: cs) || occursIn needle cs

/-- Insertion sort on strings (Python `sorted` over distinct dict keys). -/
def insertSorted (x : String) : List String → List String
  | [] => [x]
  | y :: ys => if x ≤ y then x :: y :: ys else y :: insertSorted x ys

/-- Python `sorted` on a list of strings. -/
def sortStrings (l : List String) : List String :=
  l.foldr insertSorted []

/-- The loop condition of `read_cell` (line 156):
`cell["name"] == cell_name or cell_name in cell["name"]`. -/
def cellMatches (cell_name : String) (c : Cell) : Bool :=
  c.name == cell_name || occursIn cell_name.data c.name.data

/-- The lookup loop of `read_cell` (lines 155-159): first matching cell in
scan order. -/
def findCell (cells : List Cell) (cell_name : String) : Option Cell :=
  cells.find? (cellMatches cell_name)

/-- Python slice `s[a:b]`. -/
def sliceStr (s : String) (a b : Nat) : String :=
  String.mk ((s.data.take b).drop a)

/-- The dependency display of `list_cells` (lines 141-143). -/
def depsDisplay (deps : List String) : String :=
  let base := String.intercalate ", " (deps.take 3)
  if deps.length > 3 then base ++ ", ... (+" ++ toString (deps.length - 3) ++ ")" else base

/-- `list_cells` (lines 130-144), given the extracted module mapping. -/
def list_cells (modules : List (String × String)) (module : String) : List String × Nat :=
  match dictGet? modules module with
  | none =>
    ([ "Error: Module " ++ sq ++ module ++ sq ++ " not found",
       "Available modules: " ++ String.intercalate ", " (sortStrings (modules.map Prod.fst))], 1)
  | some src =>
    (("Cells in " ++ module ++ ":") ::
      (extract_cells src).map (fun c => "  " ++ c.name ++ ": (" ++ depsDisplay c.dependencies ++ ")"), 0)

/-- `read_cell` (lines 147-163), given the extracted module mapping. -/
def read_cell (modules : List (String × String)) (module cell_name : String) : List String × Nat :=
  match dictGet? modules module with
  | none => ([ "Error: Module " ++ sq ++ module ++ sq ++ " not found"], 1)
  | some src =>
    match findCell (extract_cells src) cell_name with
    | some c => ([sliceStr src c.start c.endPos], 0)
    | none =>
      ([ "Error: Cell " ++ sq ++ cell_name ++ sq ++ " not found in module " ++ sq ++ module ++ sq,
         "Available cells: " ++ String.intercalate ", " ((extract_cells src).map Cell.name)], 1)

/-- `read_module` (lines 166-172), given the extracted module mapping. -/
def read_module (modules : List (String × String)) (module : String) : List String × Nat :=
  match dictGet? modules module with
  | none => ([ "Error: Module " ++ sq ++ module ++ sq ++ " not found"], 1)
  | some src => ([src], 0)

/-! ### Concrete example documents and cells -/

/-- The first cell of `srcTwoCells`. -/
def cellAbc : Cell := ⟨"_abc", [], 0, 26, "const _abc = function()\x7b1\x7d"⟩

/-- A document with two module blocks sharing the id `m`. -/
def docDup : List Item :=
  [ .element "script" [("type", "lope-module"), ("id", "m")] ["one"],
    .element "script" [("type", "lope-module"), ("id", "m")] ["two"] ]

/-- A document with two distinct-id module blocks among other content. -/
def docDistinct : List Item :=
  [ .element "script" [("type", "lope-module"), ("id", "a")] ["x"],
    .text "junk",
    .element "script" [("type", "lope-module"), ("id", "b")] ["y"],
    .element "div" [] ["z"],
    .element "script" [("type", "lope-file"), ("id", "f"), ("module", "a"),
      ("file", "f.txt"), ("mime", "text/plain")] ["zz"] ]

/-! ## Structure of a successful header match -/

lemma eatLit_eq : ∀ {lit s r : List Char}, eatLit lit s = some r → s = lit ++ r
  | [], _, _, h => by simpa [eatLit] using (Option.some.inj h).symm ▸ rfl
  | p :: ps, c :: cs, r, h => by
    by_cases hc : c = p
    · simp only [eatLit, hc, if_pos rfl] at h
      simpa [hc] using congrArg (List.cons p) (eatLit_eq h)
    · simp [eatLit, hc] at h

lemma dropWhile_sfx (p : Char → Bool) (l : List Char) : l.dropWhile p <:+ l :=
  ⟨l.takeWhile p, List.takeWhile_append_dropWhile p l⟩

lemma tail_sfx (c : Char) (l : List Char) : l <:+ c :: l :=
  ⟨[c], rfl⟩

lemma afterWs1_sfx {s r : List Char} (h : afterWs1 s = some r) : r <:+ s := by
  unfold afterWs1 at h
  split at h
  · exact absurd h (by simp)
  · exact (Option.some.inj h) ▸ dropWhile_sfx _ s

lemma afterName_sfx {s : List Char} {n r : List Char}
    (h : afterName s = some (n, r)) : r <:+ s := by
  unfold afterName at h
  split at h
  case _ s3 =>
    split at h
    · exact absurd h (by simp)
    · obtain ⟨h1, h2⟩ := Prod.mk.injEq .. ▸ Option.some.inj h
      exact h2 ▸ (dropWhile_sfx isWordChar s3).trans (tail_sfx _ s3)
  · exact absurd h (by simp)

lemma afterEq_sfx {s r : List Char} (h : afterEq s = some r) : r <:+ s := by
  unfold afterEq at h
  split at h
  case _ s6 heq =>
    refine ((Option.some.inj h) ▸ (tail_sfx '=' s6).trans ?_)
    exact heq ▸ dropWhile_sfx isSpaceChar s
  · exact absurd h (by simp)

lemma afterFunction_sfx {s r : List Char} (h : afterFunction s = some r) : r <:+ s := by
  unfold afterFunction at h
  have h1 := eatLit_eq h
  exact List.IsSuffix.trans ⟨cFunction, h1.symm⟩ (dropWhile_sfx _ s)

lemma afterStar_sfx (s : List Char) : afterStar s <:+ s := by
  unfold afterStar
  split
  · exact tail_sfx _ _
  · exact List.suffix_refl s

lemma afterOptName_sfx (s : List Char) : afterOptName s <:+ s :=
  (dropWhile_sfx _ _).trans ((dropWhile_sfx _ _).trans (dropWhile_sfx _ s))

lemma afterParams_sfx {s : List Char} {d r : List Char}
    (h : afterParams s = some (d, r)) : r <:+ s := by
  unfold afterParams at h
  split at h
  case _ s13 =>
    split at h
    case _ s15 heq =>
      obtain ⟨h1, h2⟩ := Prod.mk.injEq .. ▸ Option.some.inj h
      refine h2 ▸ ((tail_sfx ')' s15).trans ?_).trans (tail_sfx '(' s13)
      exact heq ▸ dropWhile_sfx _ s13
    · exact absurd h (by simp)
  · exact absurd h (by simp)

lemma afterBrace_decomp {s r : List Char} (h : afterBrace s = some r) :
    ∃ w, s = w ++ '{' :: r := by
  unfold afterBrace at h
  split at h
  case _ s17 heq =>
    obtain rfl : s17 = r := Option.some.inj h
    refine ⟨s.takeWhile isSpaceChar, ?_⟩
    rw [← heq]
    exact (List.takeWhile_append_dropWhile isSpaceChar s).symm
  · exact absurd h (by simp)

/-- A successful header match consumes a block of text that starts with the
literal `const` and ends with the matched opening brace. -/
lemma matchCellHeader_decomp {s n d rest : List Char}
    (h : matchCellHeader s = some (n, d, rest)) :
    ∃ u, s = cConst ++ u ++ '{' :: rest := by
  unfold matchCellHeader at h
  simp only [Option.bind_eq_some, Option.map_eq_some'] at h
  obtain ⟨s1, h1, s2, h2, ⟨nm, s4⟩, h3, s6, h4, s8, h5, ⟨dp, s15⟩, h6, rest', h7, heq⟩ := h
  have hr : rest' = rest := congrArg (fun t => t.2.2) heq
  obtain ⟨w, hw⟩ := afterBrace_decomp h7
  have hw2 : s15 = w ++ '{' :: rest := by rw [← hr]; exact hw
  have hs15 : s15 <:+ s1 := by
    have c1 : s15 <:+ afterOptName (afterStar s8) := afterParams_sfx h6
    have c2 : afterOptName (afterStar s8) <:+ s8 := (afterOptName_sfx _).trans (afterStar_sfx s8)
    have c3 : s8 <:+ s6 := afterFunction_sfx h5
    have c4 : s6 <:+ s4 := afterEq_sfx h4
    have c5 : s4 <:+ s2 := afterName_sfx h3
    have c6 : s2 <:+ s1 := afterWs1_sfx h2
    exact ((((c1.trans c2).trans c3).trans c4).trans c5).trans c6
  obtain ⟨u1, hu1⟩ := hs15
  refine ⟨u1 ++ w, ?_⟩
  rw [eatLit_eq h1, ← hu1, hw2]
  simp

/-! ## Depth-counting characterization of the brace scan -/

/-- Depth contribution of one character. -/
def braceDelta (c : Char) : Int :=
  if c = '{' then 1 else if c = '}' then -1 else 0

/-- The brace depth after scanning the first `k` characters of `t`, starting
from depth `d`. -/
def depthAt (t : List Char) (d k : Nat) : Int :=
  (d : Int) + (((t.take k).map braceDelta).sum)

lemma depthAt_zero (t : List Char) (d : Nat) : depthAt t d 0 = (d : Int) := by
  simp [depthAt]

lemma depthAt_cons (c : Char) (cs : List Char) (d D k : Nat)
    (hD : (D : Int) = (d : Int) + braceDelta c) :
    depthAt (c :: cs) d (k + 1) = depthAt cs D k := by
  simp only [depthAt, List.take_succ_cons, List.map_cons, List.sum_cons, hD]
  ring

lemma depthAt_succ (t : List Char) (d k : Nat) (h : k < t.length) :
    depthAt t d (k + 1) = depthAt t d k + braceDelta (t.get ⟨k, h⟩) := by
  unfold depthAt
  rw [List.take_succ, List.getElem?_eq_getElem h, List.map_append, List.sum_append]
  simp only [Option.toList_some, List.map_cons, List.map_nil, List.sum_cons, List.sum_nil,
    List.get_eq_getElem, add_zero]
  ring

lemma braceScanAux_ge : ∀ (t : List Char) (d p : Nat), p ≤ braceScanAux t d p
  | _, 0, _ => by simp [braceScanAux]
  | [], _ + 1, _ => by simp [braceScanAux]
  | c :: cs, d + 1, p => by
    have h := braceScanAux_ge cs (if c = '{' then d + 2 else if c = '}' then d else d + 1) (p + 1)
    simp only [braceScanAux]
    omega

lemma braceScanAux_le : ∀ (t : List Char) (d p : Nat), braceScanAux t d p ≤ p + t.length
  | t, 0, p => by cases t <;> simp [braceScanAux]
  | [], _ + 1, _ => by simp [braceScanAux]
  | c :: cs, d + 1, p => by
    have h := braceScanAux_le cs (if c = '{' then d + 2 else if c = '}' then d else d + 1) (p + 1)
    simp only [braceScanAux, List.length_cons]
    omega

/-- The loop invariant of the brace scan: every strictly earlier position has
positive depth, and the scan ends either exactly where the depth first
reaches `0` or at the end of the text. -/
lemma braceScanAux_depth : ∀ (t : List Char) (d p : Nat), 0 < d →
    (∀ j < braceScanAux t d p - p, 0 < depthAt t d j) ∧
    (depthAt t d (braceScanAux t d p - p) = 0 ∨ braceScanAux t d p = p + t.length)
  | [], d, p, hd => by
    obtain ⟨d', rfl⟩ := Nat.exists_eq_succ_of_ne_zero (Nat.pos_iff_ne_zero.mp hd)
    simp [braceScanAux]
  | c :: cs, d, p, hd => by
    obtain ⟨d', rfl⟩ := Nat.exists_eq_succ_of_ne_zero (Nat.pos_iff_ne_zero.mp hd)
    have hunfold : braceScanAux (c :: cs) (d' + 1) p =
        braceScanAux cs (if c = '{' then d' + 2 else if c = '}' then d' else d' + 1) (p + 1) := rfl
    set D := if c = '{' then d' + 2 else if c = '}' then d' else d' + 1 with hDdef
    have hshift : ∀ k, depthAt (c :: cs) (d' + 1) (k + 1) = depthAt cs D k := by
      intro k
      refine depthAt_cons c cs (d' + 1) D k ?_
      rw [hDdef]
      unfold braceDelta
      by_cases h1 : c = '{'
      · rw [if_pos h1, if_pos h1]
        omega
      · by_cases h2 : c = '}'
        · rw [if_neg h1, if_pos h2, if_neg h1, if_pos h2]
          omega
        · rw [if_neg h1, if_neg h2, if_neg h1, if_neg h2]
          omega
    by_cases hD0 : D = 0
    · have hstop : braceScanAux cs D (p + 1) = p + 1 := by
        rw [hD0]; cases cs <;> rfl
      rw [hunfold, hstop]
      constructor
      · intro j hj
        have hj0 : j = 0 := by omega
        rw [hj0, depthAt_zero]
        exact_mod_cast Nat.succ_pos d'
      · left
        have h1 : p + 1 - p = 1 := by omega
        rw [h1, hshift 0, depthAt_zero, hD0]
        rfl
    · have hDpos : 0 < D := Nat.pos_iff_ne_zero.mpr hD0
      obtain ⟨ih1, ih2⟩ := braceScanAux_depth cs D (p + 1) hDpos
      have hge : p + 1 ≤ braceScanAux cs D (p + 1) := braceScanAux_ge cs D (p + 1)
      rw [hunfold]
      have he : braceScanAux cs D (p + 1) - p = (braceScanAux cs D (p + 1) - (p + 1)) + 1 := by
        omega
      constructor
      · intro j hj
        cases j with
        | zero =>
          rw [depthAt_zero]
          exact_mod_cast Nat.succ_pos d'
        | succ j' =>
          rw [hshift j']
          exact ih1 j' (by omega)
      · rw [he]
        rcases ih2 with h0 | hlen
        · left
          rw [hshift]
          exact h0
        · right
          rw [hlen]
          simp only [List.length_cons]
          omega

/-- If the depth first reaches `0` at position `e`, the character just before
`e` is a closing brace. -/
lemma balance_close (t : List Char) (d e : Nat) (hd : 0 < d) (he : e ≤ t.length)
    (h0 : depthAt t d e = 0) (hpos : ∀ j < e, 0 < depthAt t d j) :
    ∃ (h : e - 1 < t.length), t.get ⟨e - 1, h⟩ = '}' := by
  have he1 : 1 ≤ e := by
    by_contra h
    have : e = 0 := by omega
    rw [this, depthAt_zero] at h0
    omega
  have hlt : e - 1 < t.length := by omega
  refine ⟨hlt, ?_⟩
  have hstep : depthAt t d ((e - 1) + 1) = depthAt t d (e - 1) + braceDelta (t.get ⟨e - 1, hlt⟩) :=
    depthAt_succ t d (e - 1) hlt
  have hee : (e - 1) + 1 = e := by omega
  rw [hee] at hstep
  have hprev : 0 < depthAt t d (e - 1) := hpos (e - 1) (by omega)
  have hdelta : braceDelta (t.get ⟨e - 1, hlt⟩) = -1 := by
    rw [h0] at hstep
    have hb : braceDelta (t.get ⟨e - 1, hlt⟩) = 1 ∨ braceDelta (t.get ⟨e - 1, hlt⟩) = -1 ∨
        braceDelta (t.get ⟨e - 1, hlt⟩) = 0 := by
      unfold braceDelta
      split
      · exact Or.inl rfl
      · split
        · exact Or.inr (Or.inl rfl)
        · exact Or.inr (Or.inr rfl)
    omega
  by_cases h2 : t.get ⟨e - 1, hlt⟩ = '}'
  · exact h2
  · exfalso
    have hne : braceDelta (t.get ⟨e - 1, hlt⟩) ≠ -1 := by
      unfold braceDelta
      by_cases h1 : t.get ⟨e - 1, hlt⟩ = '{'
      · rw [List.get_eq_getElem] at h1
        simp [h1]
      · rw [List.get_eq_getElem] at h1 h2
        simp [h1, h2]
    exact hne hdelta

/-! ## Soundness of the cell scan -/

/-- Everything the scan records about one emitted descriptor, stated against
the full module text `L`. -/
def CellOk (L : List Char) (c : Cell) : Prop :=
  c.start ≤ L.length ∧
  ∃ name deps rest,
    matchCellHeader (L.drop c.start) = some (name, deps, rest) ∧
    rest = L.drop (c.start + ((L.drop c.start).length - rest.length)) ∧
    c.endPos = braceScanAux rest 1 (c.start + ((L.drop c.start).length - rest.length)) ∧
    c.name = String.mk name ∧
    c.dependencies = parseDeps deps ∧
    c.preview = previewOf ((L.drop c.start).take (c.endPos - c.start))

lemma drop_cons_length {L : List Char} {pos : Nat} {c0 : Char} {cs : List Char}
    (hdrop : L.drop pos = c0 :: cs) : pos < L.length := by
  by_contra h
  rw [List.drop_eq_nil_of_le (le_of_not_lt h)] at hdrop
  exact List.noConfusion hdrop

lemma scanCellsAux_sound (L : List Char) :
    ∀ (fuel pos : Nat), pos ≤ L.length →
      ∀ c ∈ scanCellsAux fuel (L.drop pos) pos, CellOk L c := by
  intro fuel
  induction fuel with
  | zero =>
    intro pos _ c hc
    simp [scanCellsAux] at hc
  | succ fuel ih =>
    intro pos hpos c hc
    cases hdrop : L.drop pos with
    | nil =>
      rw [hdrop] at hc
      simp [scanCellsAux] at hc
    | cons c0 cs =>
      rw [hdrop] at hc
      cases hmatch : matchCellHeader (c0 :: cs) with
      | none =>
        simp only [scanCellsAux, hmatch] at hc
        have hdrop1 : L.drop (pos + 1) = cs := by
          rw [← List.drop_drop 1 pos L, hdrop]
          rfl
        have hlt : pos < L.length := drop_cons_length hdrop
        exact ih (pos + 1) (by omega) c (by rw [hdrop1]; exact hc)
      | some triple =>
        obtain ⟨name, deps, rest⟩ := triple
        simp only [scanCellsAux, hmatch, List.mem_cons] at hc
        obtain ⟨u, hu⟩ := matchCellHeader_decomp hmatch
        have hsplit : c0 :: cs = (cConst ++ u ++ ['{']) ++ rest := by
          rw [hu]; simp
        have hconsumed : (c0 :: cs).length - rest.length = (cConst ++ u ++ ['{']).length := by
          rw [hsplit]
          simp only [List.length_append, List.length_cons, List.length_nil]
          omega
        have hdroprest : (c0 :: cs).drop ((c0 :: cs).length - rest.length) = rest := by
          rw [hconsumed, hsplit, List.drop_left]
        have hlenle : (c0 :: cs).length - rest.length ≤ L.length - pos := by
          have h1 : (c0 :: cs).length = (L.drop pos).length := by rw [hdrop]
          rw [h1, List.length_drop]
          omega
        have hrest : rest = L.drop (pos + ((c0 :: cs).length - rest.length)) := by
          rw [← List.drop_drop ((c0 :: cs).length - rest.length) pos L, hdrop, hdroprest]
        have hlt : pos < L.length := drop_cons_length hdrop
        have hhe : pos + ((c0 :: cs).length - rest.length) ≤ L.length := by omega
        rcases hc with rfl | hc
        · constructor
          · show pos ≤ L.length
            omega
          · refine ⟨name, deps, rest, ?_, ?_, ?_, rfl, rfl, ?_⟩
            · show matchCellHeader (L.drop pos) = some (name, deps, rest)
              rw [hdrop]
              exact hmatch
            · show rest = L.drop (pos + ((L.drop pos).length - rest.length))
              rw [hdrop]
              exact hrest
            · show braceScanAux rest 1 (pos + ((c0 :: cs).length - rest.length)) =
                braceScanAux rest 1 (pos + ((L.drop pos).length - rest.length))
              rw [hdrop]
            · show previewOf ((c0 :: cs).take
                  (braceScanAux rest 1 (pos + ((c0 :: cs).length - rest.length)) - pos)) =
                previewOf ((L.drop pos).take
                  (braceScanAux rest 1 (pos + ((c0 :: cs).length - rest.length)) - pos))
              rw [hdrop]
        · have hrw : scanCellsAux fuel rest (pos + ((c0 :: cs).length - rest.length)) =
              scanCellsAux fuel (L.drop (pos + ((c0 :: cs).length - rest.length)))
                (pos + ((c0 :: cs).length - rest.length)) := by
            rw [← hrest]
          exact ih _ hhe c (by rw [← hrw]; exact hc)

/-- All cells returned by `extract_cells` satisfy `CellOk`. -/
lemma extract_cells_sound (src : String) :
    ∀ c ∈ extract_cells src, CellOk src.data c := by
  intro c hc
  exact scanCellsAux_sound src.data (src.data.length + 1) 0 (by omega) c hc

/-- Unpacked form of `CellOk`: the header consumes `6 + u.length` characters
(`const`, the middle part `u`, and the opening brace). -/
lemma cellOk_unpack {L : List Char} {c : Cell} (h : CellOk L c) :
    ∃ name deps rest u,
      matchCellHeader (L.drop c.start) = some (name, deps, rest) ∧
      L.drop c.start = cConst ++ u ++ '{' :: rest ∧
      c.start + (6 + u.length) ≤ L.length ∧
      rest = L.drop (c.start + (6 + u.length)) ∧
      c.endPos = braceScanAux rest 1 (c.start + (6 + u.length)) ∧
      c.name = String.mk name ∧
      c.dependencies = parseDeps deps ∧
      c.preview = previewOf ((L.drop c.start).take (c.endPos - c.start)) := by
  obtain ⟨hstart, name, deps, rest, hmatch, hrest, hend, hname, hdeps, hprev⟩ := h
  obtain ⟨u, hu⟩ := matchCellHeader_decomp hmatch
  have hlen : (L.drop c.start).length = 6 + u.length + rest.length := by
    rw [hu]
    simp only [List.length_append, List.length_cons]
    have h5 : cConst.length = 5 := rfl
    omega
  have hcons : (L.drop c.start).length - rest.length = 6 + u.length := by omega
  have hdroplen : (L.drop c.start).length = L.length - c.start := List.length_drop c.start L
  refine ⟨name, deps, rest, u, hmatch, hu, by omega, ?_, ?_, hname, hdeps, hprev⟩
  · rw [← hcons]
    exact hrest
  · rw [← hcons]
    exact hend

/-- The preview never exceeds 203 characters. -/
lemma previewOf_length_le (content : List Char) : (previewOf content).length ≤ 203 := by
  unfold previewOf
  split
  · rw [String.length_append]
    have h1 : (String.mk (content.take 200)).length = (content.take 200).length := rfl
    have h2 : (content.take 200).length ≤ 200 := by
      simp [List.length_take]
    have h3 : ("..." : String).length = 3 := rfl
    omega
  · have h1 : (String.mk content).length = content.length := rfl
    omega

/-- Basic bounds shared by several claims. -/
lemma cell_bounds {L : List Char} {c : Cell} (h : CellOk L c) :
    c.start + 6 ≤ c.endPos ∧ c.endPos ≤ L.length := by
  obtain ⟨name, deps, rest, u, hmatch, hu, hhe, hrest, hend, hname, hdeps, hprev⟩ :=
    cellOk_unpack h
  have hge := braceScanAux_ge rest 1 (c.start + (6 + u.length))
  have hle := braceScanAux_le rest 1 (c.start + (6 + u.length))
  have hrl : rest.length = L.length - (c.start + (6 + u.length)) := by
    rw [hrest]
    exact List.length_drop _ L
  constructor
  · omega
  · omega

/-- The Python slice `source[a:b]` equals the scan-relative content. -/
lemma slice_eq_content (L : List Char) (a b : Nat) :
    (L.take b).drop a = (L.drop a).take (b - a) := by
  rw [List.drop_take]

/-- `filter`-then-`map` form of the list comprehension, as a `filterMap`. -/
lemma filter_map_as_filterMap (l : List (List Char)) :
    ((l.filter (fun d => !d.isEmpty)).map fun d => String.mk d) =
      l.filterMap (fun d => if d.isEmpty then none else some (String.mk d)) := by
  induction l with
  | nil => rfl
  | cons h t ih =>
    rw [List.filter_cons, List.filterMap_cons]
    by_cases hh : h.isEmpty
    · have hh2 : h = [] := List.isEmpty_iff.mp hh
      simp [hh, hh2, ih]
    · have hh2 : ¬h = [] := by
        intro h0
        rw [h0] at hh
        exact hh rfl
      simp [hh, hh2, ih]

lemma parseDeps_filterMap (s : List Char) :
    parseDeps s = ((splitCommas s).map pyStrip).filterMap
      (fun d => if d.isEmpty then none else some (String.mk d)) := by
  unfold parseDeps
  exact filter_map_as_filterMap _

lemma parseDeps_no_empty (s : List Char) : "" ∉ parseDeps s := by
  rw [parseDeps_filterMap]
  intro hmem
  rw [List.mem_filterMap] at hmem
  obtain ⟨d, _, hd⟩ := hmem
  by_cases hh : d.isEmpty
  · simp [hh] at hd
  · rw [if_neg hh] at hd
    have hdata : d = [] := congrArg String.data (Option.some.inj hd)
    rw [hdata] at hh
    exact hh rfl

/-! ## The Markup Extractor: dict-model and event-fold lemmas -/

lemma attrsGet_of_absent (attrs : List (String × String)) (k d : String)
    (h : ∀ v, (k, v) ∉ attrs) : attrsGet attrs k d = d := by
  unfold attrsGet
  cases hfind : attrs.reverse.find? (fun p => p.1 = k) with
  | none => rfl
  | some p =>
    exfalso
    have hp : p.1 = k := by simpa using List.find?_some hfind
    have hmem : p ∈ attrs := by
      have := List.mem_of_find?_eq_some hfind
      rwa [List.mem_reverse] at this
    refine h p.2 ?_
    rw [← hp]
    exact hmem

lemma any_key_iff (m : List (String × String)) (k : String) :
    (m.any (fun p => p.1 = k) = true) ↔ k ∈ m.map Prod.fst := by
  rw [List.any_eq_true, List.mem_map]
  constructor
  · rintro ⟨p, hp, hk⟩
    exact ⟨p, hp, of_decide_eq_true hk⟩
  · rintro ⟨p, hp, hk⟩
    exact ⟨p, hp, decide_eq_true hk⟩

lemma dictInsert_keys (m : List (String × String)) (k v : String) :
    (dictInsert m k v).map Prod.fst =
      if k ∈ m.map Prod.fst then m.map Prod.fst else m.map Prod.fst ++ [k] := by
  unfold dictInsert
  by_cases h : k ∈ m.map Prod.fst
  · rw [if_pos ((any_key_iff m k).mpr h), if_pos h, List.map_map]
    refine List.map_congr_left ?_
    intro p _
    by_cases hp : p.1 = k
    · simp [hp]
    · simp [hp]
  · rw [if_neg (fun ha => h ((any_key_iff m k).mp ha)), if_neg h]
    simp

lemma dictInsert_length (m : List (String × String)) (k v : String) :
    (dictInsert m k v).length =
      if k ∈ m.map Prod.fst then m.length else m.length + 1 := by
  unfold dictInsert
  by_cases h : k ∈ m.map Prod.fst
  · rw [if_pos ((any_key_iff m k).mpr h), if_pos h, List.length_map]
  · rw [if_neg (fun ha => h ((any_key_iff m k).mp ha)), if_neg h]
    simp

lemma find?_value_map_update (m : List (String × String)) (k v : String) :
    (m.map (fun p => if p.1 = k then (k, v) else p)).find? (fun p => p.1 = k) =
      (m.find? (fun p => p.1 = k)).map (fun _ => (k, v)) := by
  induction m with
  | nil => rfl
  | cons q t ih =>
    by_cases hq : q.1 = k
    · rw [List.map_cons, if_pos hq, List.find?_cons_of_pos _ (by simp),
        List.find?_cons_of_pos _ (by simpa using hq)]
      rfl
    · rw [List.map_cons, if_neg hq, List.find?_cons_of_neg _ (by simpa using hq),
        List.find?_cons_of_neg _ (by simpa using hq)]
      exact ih

lemma find?_key_append_single (m : List (String × String)) (k v q : String) :
    (m ++ [(k, v)]).find? (fun p => p.1 = q) =
      (m.find? (fun p => p.1 = q)).or (if k = q then some (k, v) else none) := by
  rw [List.find?_append]
  congr 1
  by_cases hk : k = q
  · rw [List.find?_cons_of_pos _ (by simpa using hk), if_pos hk]
  · rw [List.find?_cons_of_neg _ (by simpa using hk), if_neg hk]
    rfl

lemma dictGet?_insert_self (m : List (String × String)) (k v : String) :
    dictGet? (dictInsert m k v) k = some v := by
  unfold dictGet? dictInsert
  by_cases h : m.any (fun p => p.1 = k) = true
  · rw [if_pos h, find?_value_map_update]
    cases hfind : m.find? (fun p => p.1 = k) with
    | some p2 => rfl
    | none =>
      exfalso
      rw [List.any_eq_true] at h
      obtain ⟨p, hp, hk⟩ := h
      exact absurd hk (by simpa using List.find?_eq_none.mp hfind p hp)
  · rw [if_neg h, find?_key_append_single]
    have hnone : m.find? (fun p => p.1 = k) = none := by
      rw [List.find?_eq_none]
      intro p hp hk
      exact h (List.any_eq_true.mpr ⟨p, hp, hk⟩)
    rw [hnone, if_pos rfl]
    rfl

lemma dictGet?_insert_other (m : List (String × String)) (k k2 v : String) (h : k ≠ k2) :
    dictGet? (dictInsert m k2 v) k = dictGet? m k := by
  unfold dictGet? dictInsert
  by_cases ha : m.any (fun p => p.1 = k2) = true
  · rw [if_pos ha]
    clear ha
    induction m with
    | nil => rfl
    | cons q t ih =>
      by_cases hq : q.1 = k2
      · have hqk : ¬ q.1 = k := by
          rw [hq]
          exact fun he => h he.symm
        rw [List.map_cons, if_pos hq,
          List.find?_cons_of_neg _ (by simpa using fun he : k2 = k => h he.symm),
          List.find?_cons_of_neg _ (by simpa using hqk)]
        exact ih
      · by_cases hqk : q.1 = k
        · rw [List.map_cons, if_neg hq, List.find?_cons_of_pos _ (by simpa using hqk),
            List.find?_cons_of_pos _ (by simpa using hqk)]
        · rw [List.map_cons, if_neg hq, List.find?_cons_of_neg _ (by simpa using hqk),
            List.find?_cons_of_neg _ (by simpa using hqk)]
          exact ih
  · rw [if_neg ha, find?_key_append_single, if_neg (fun he : k2 = k => h he.symm)]
    rw [Option.or_none]

lemma data_fold_script (texts : List String) :
    ∀ st : ParserState, st.current_tag = some "script" →
      (texts.map Event.data).foldl handleEvent st =
        { st with current_data := st.current_data ++ texts } := by
  induction texts with
  | nil =>
    intro st _
    simp
  | cons t ts ih =>
    intro st h
    rw [List.map_cons, List.foldl_cons]
    have h1 : handleEvent st (Event.data t) =
        { st with current_data := st.current_data ++ [t] } := by
      simp [handleEvent, handle_data, h]
    rw [h1, ih { st with current_data := st.current_data ++ [t] } h]
    simp

lemma data_fold_other (texts : List String) :
    ∀ st : ParserState, st.current_tag ≠ some "script" →
      (texts.map Event.data).foldl handleEvent st = st := by
  induction texts with
  | nil =>
    intro st _
    rfl
  | cons t ts ih =>
    intro st h
    rw [List.map_cons, List.foldl_cons]
    have h1 : handleEvent st (Event.data t) = st := by
      simp [handleEvent, handle_data, h]
    rw [h1]
    exact ih st h

lemma processItem_text (st : ParserState) (hclean : st.current_tag = none) (s : String) :
    processItem st (.text s) = st := by
  simp only [processItem, Item.events]
  rw [List.foldl_cons, List.foldl_nil]
  simp [handleEvent, handle_data, hclean]

lemma processItem_element_script (st : ParserState) (attrs : List (String × String))
    (texts : List String) :
    processItem st (.element "script" attrs texts) =
      handle_endtag { st with current_tag := some "script", current_attrs := attrs,
                              current_data := texts } "script" := by
  simp only [processItem, Item.events, List.foldl_append, List.foldl_cons, List.foldl_nil]
  have h1 : handleEvent st (Event.startTag "script" attrs) =
      { st with current_tag := some "script", current_attrs := attrs, current_data := [] } := rfl
  rw [h1, data_fold_script texts _ rfl]
  simp [handleEvent]

lemma processItem_element_other (st : ParserState) (tag : String) (htag : tag ≠ "script")
    (attrs : List (String × String)) (texts : List String) :
    processItem st (.element tag attrs texts) =
      { st with current_tag := none, current_attrs := [], current_data := [] } := by
  simp only [processItem, Item.events, List.foldl_append, List.foldl_cons, List.foldl_nil]
  have h1 : handleEvent st (Event.startTag tag attrs) =
      { st with current_tag := some tag, current_attrs := attrs, current_data := [] } := rfl
  rw [h1, data_fold_other texts _ (by simp [htag])]
  simp [handleEvent, handle_endtag, htag]

lemma parseDoc_modules_aux (d : List Item) :
    ∀ st : ParserState, st.current_tag = none →
      ((docEvents d).foldl handleEvent st).modules =
        (moduleEntries d).foldl (fun m e => dictInsert m e.1 e.2) st.modules ∧
      ((docEvents d).foldl handleEvent st).current_tag = none := by
  induction d with
  | nil =>
    intro st h
    exact ⟨rfl, h⟩
  | cons it d ih =>
    intro st h
    have hev : docEvents (it :: d) = it.events ++ docEvents d := by
      simp [docEvents]
    rw [hev, List.foldl_append]
    have hfold : it.events.foldl handleEvent st = processItem st it := rfl
    rw [hfold]
    cases it with
    | text s =>
      rw [processItem_text st h s]
      have hentries : moduleEntries (.text s :: d) = moduleEntries d := by
        simp [moduleEntries, isModuleBlock]
      rw [hentries]
      exact ih st h
    | element tag attrs texts =>
      by_cases htag : tag = "script"
      · subst htag
        rw [processItem_element_script st attrs texts]
        have hcur : (handle_endtag { st with current_tag := some "script", current_attrs := attrs, current_data := texts } "script").current_tag = none := by
          simp [handle_endtag]
        obtain ⟨ihm, ihc⟩ := ih _ hcur
        by_cases hty : attrsGet attrs "type" "" = "lope-module"
        · have hmods : (handle_endtag { st with current_tag := some "script", current_attrs := attrs, current_data := texts } "script").modules = dictInsert st.modules (attrsGet attrs "id" "unknown") (String.join texts) := by
            simp [handle_endtag, hty]
          have hentries : moduleEntries (.element "script" attrs texts :: d) =
              (attrsGet attrs "id" "unknown", String.join texts) :: moduleEntries d := by
            simp [moduleEntries, List.filter_cons, isModuleBlock, moduleIdOf, moduleContentOf, hty]
          rw [hentries, List.foldl_cons]
          exact ⟨by rw [ihm, hmods], ihc⟩
        · have hmods : (handle_endtag { st with current_tag := some "script", current_attrs := attrs, current_data := texts } "script").modules = st.modules := by
            by_cases hfile : attrsGet attrs "type" "" = "lope-file" <;>
              simp [handle_endtag, hty, hfile]
          have hentries : moduleEntries (.element "script" attrs texts :: d) =
              moduleEntries d := by
            simp [moduleEntries, List.filter_cons, isModuleBlock, hty]
          rw [hentries]
          exact ⟨by rw [ihm, hmods], ihc⟩
      · rw [processItem_element_other st tag htag attrs texts]
        have hentries : moduleEntries (.element tag attrs texts :: d) = moduleEntries d := by
          simp [moduleEntries, List.filter_cons, isModuleBlock, htag]
        rw [hentries]
        exact ih _ rfl

lemma fold_dictInsert_length :
    ∀ (entries m : List (String × String)),
      (∀ e ∈ entries, e.1 ∉ m.map Prod.fst) → (entries.map Prod.fst).Nodup →
      (entries.foldl (fun acc e => dictInsert acc e.1 e.2) m).length =
        m.length + entries.length := by
  intro entries
  induction entries with
  | nil =>
    intro m _ _
    simp
  | cons e t ih =>
    intro m hdis hnodup
    rw [List.foldl_cons]
    have hnotin : e.1 ∉ m.map Prod.fst := hdis e (List.mem_cons_self e t)
    have hlen := dictInsert_length m e.1 e.2
    rw [if_neg hnotin] at hlen
    have hkeys := dictInsert_keys m e.1 e.2
    rw [if_neg hnotin] at hkeys
    rw [List.map_cons, List.nodup_cons] at hnodup
    have hdis2 : ∀ e2 ∈ t, e2.1 ∉ (dictInsert m e.1 e.2).map Prod.fst := by
      intro e2 he2
      rw [hkeys, List.mem_append]
      rintro (h1 | h2)
      · exact hdis e2 (List.mem_cons_of_mem e he2) h1
      · rw [List.mem_singleton] at h2
        exact hnodup.1 (h2 ▸ List.mem_map_of_mem Prod.fst he2)
    rw [ih (dictInsert m e.1 e.2) hdis2 hnodup.2, hlen, List.length_cons]
    omega

lemma fold_dictGet? :
    ∀ (entries m : List (String × String)) (k : String),
      dictGet? (entries.foldl (fun acc e => dictInsert acc e.1 e.2) m) k =
        ((entries.reverse.find? (fun e => e.1 = k)).map (fun e => e.2)).or (dictGet? m k) := by
  intro entries
  induction entries with
  | nil =>
    intro m k
    simp
  | cons e t ih =>
    intro m k
    rw [List.foldl_cons, ih, List.reverse_cons, List.find?_append]
    cases hf : t.reverse.find? (fun e2 => e2.1 = k) with
    | some f => simp
    | none =>
      simp only [Option.map_none', Option.none_or]
      by_cases hek : e.1 = k
      · rw [List.find?_cons_of_pos _ (by simpa using hek), Option.map_some']
        show dictGet? (dictInsert m e.1 e.2) k = some e.2
        rw [← hek]
        exact dictGet?_insert_self m e.1 e.2
      · rw [List.find?_cons_of_neg _ (by simpa using hek), List.find?_nil, Option.map_none',
          Option.none_or]
        exact dictGet?_insert_other m k e.1 e.2 (fun he => hek he.symm)

/-! ## Claim theorems about the Markup Extractor -/

/-- **C2.** A document with `N` distinct-id module blocks yields exactly `N`
module entries, and a duplicated id retains the content of the last
occurrence (last-write-wins). -/
theorem parseDoc_modules_spec (d : List Item) :
    ((moduleIds d).Nodup → (parseDoc d).modules.length = (moduleIds d).length) ∧
    (∀ i, i ∈ moduleIds d → dictGet? (parseDoc d).modules i = lastModuleContent d i) := by
  have hmods : (parseDoc d).modules =
      (moduleEntries d).foldl (fun m e => dictInsert m e.1 e.2) [] :=
    (parseDoc_modules_aux d initState rfl).1
  have hkeys : (moduleEntries d).map Prod.fst = moduleIds d := by
    unfold moduleEntries moduleIds
    rw [List.map_map]
    rfl
  constructor
  · intro hnodup
    rw [hmods,
      fold_dictInsert_length (moduleEntries d) [] (by simp) (by rw [hkeys]; exact hnodup)]
    simp [moduleEntries, moduleIds]
  · intro i hi
    rw [hmods, fold_dictGet? (moduleEntries d) [] i]
    have hemp : dictGet? [] i = none := rfl
    rw [hemp, Option.or_none]
    unfold lastModuleContent moduleEntries
    rw [← List.map_reverse, List.find?_map]
    have hpred : ((fun e : String × String => decide (e.1 = i)) ∘
        (fun it => (moduleIdOf it, moduleContentOf it))) =
        fun it => decide (moduleIdOf it = i) := rfl
    rw [hpred]
    cases hfind : (d.filter isModuleBlock).reverse.find? (fun it => moduleIdOf it = i) with
    | some it => simp
    | none =>
      exfalso
      unfold moduleIds at hi
      rw [List.mem_map] at hi
      obtain ⟨it, hit, hid⟩ := hi
      have := List.find?_eq_none.mp hfind it (List.mem_reverse.mpr hit)
      simp [hid] at this

/-- **C8.** A missing attribute never fails extraction: a module block with
no `id` attribute is recorded under `"unknown"`, and a file block's missing
`id`, `module`, `file` or `mime` attributes default to the empty string. -/
theorem handle_endtag_missing_attrs (st : ParserState) (hcur : st.current_tag = some "script") :
    (attrsGet st.current_attrs "type" "" = "lope-module" →
      (∀ v, ("id", v) ∉ st.current_attrs) →
      (handle_endtag st "script").modules =
        dictInsert st.modules "unknown" (String.join st.current_data)) ∧
    (attrsGet st.current_attrs "type" "" = "lope-file" →
      (handle_endtag st "script").files = st.files ++
        [{ id := attrsGet st.current_attrs "id" "",
           module := attrsGet st.current_attrs "module" "",
           file := attrsGet st.current_attrs "file" "",
           mime := attrsGet st.current_attrs "mime" "",
           size := (String.join st.current_data).length }] ∧
      ((∀ v, ("id", v) ∉ st.current_attrs) → attrsGet st.current_attrs "id" "" = "") ∧
      ((∀ v, ("module", v) ∉ st.current_attrs) → attrsGet st.current_attrs "module" "" = "") ∧
      ((∀ v, ("file", v) ∉ st.current_attrs) → attrsGet st.current_attrs "file" "" = "") ∧
      ((∀ v, ("mime", v) ∉ st.current_attrs) → attrsGet st.current_attrs "mime" "" = "")) := by
  constructor
  · intro htype hid
    have hunk : attrsGet st.current_attrs "id" "unknown" = "unknown" :=
      attrsGet_of_absent st.current_attrs "id" "unknown" hid
    simp [handle_endtag, hcur, htype, hunk]
  · intro htype
    have hne : ¬ attrsGet st.current_attrs "type" "" = "lope-module" := by
      rw [htype]
      decide
    refine ⟨?_, fun h => attrsGet_of_absent _ _ _ h, fun h => attrsGet_of_absent _ _ _ h,
      fun h => attrsGet_of_absent _ _ _ h, fun h => attrsGet_of_absent _ _ _ h⟩
    simp [handle_endtag, hcur, htype, hne]

/-! ## Claim theorems about the command surface -/

lemma find?_first {α : Type} (p : α → Bool) :
    ∀ (l : List α) (x : α), l.find? p = some x →
      ∃ l1 l2, l = l1 ++ x :: l2 ∧ p x = true ∧ ∀ y ∈ l1, p y = false := by
  intro l
  induction l with
  | nil =>
    intro x h
    cases h
  | cons a t ih =>
    intro x h
    by_cases ha : p a = true
    · rw [List.find?_cons_of_pos _ ha] at h
      obtain rfl := Option.some.inj h
      exact ⟨[], t, rfl, ha, by intro y hy; cases hy⟩
    · rw [List.find?_cons_of_neg _ (by simpa using ha)] at h
      obtain ⟨l1, l2, hl, hx, hall⟩ := ih x h
      refine ⟨a :: l1, l2, by rw [hl]; rfl, hx, ?_⟩
      intro y hy
      rcases List.mem_cons.mp hy with rfl | hmem
      · simpa using ha
      · exact hall y hmem

/-- **C4.** The read-cell lookup returns the first cell in scan order whose
name equals the query or contains it as a substring; exact matches are not
prioritized over earlier substring matches.  When the lookup succeeds,
`read_cell` prints that cell's slice of the module source. -/
theorem read_cell_first_match :
    (∀ (cells : List Cell) (q : String) (c : Cell), findCell cells q = some c →
      ∃ l1 l2, cells = l1 ++ c :: l2 ∧ cellMatches q c = true ∧
        ∀ c2 ∈ l1, cellMatches q c2 = false) ∧
    (∀ (modules : List (String × String)) (m q src : String) (c : Cell),
      dictGet? modules m = some src → findCell (extract_cells src) q = some c →
      read_cell modules m q = ([sliceStr src c.start c.endPos], 0)) := by
  constructor
  · intro cells q c h
    exact find?_first (cellMatches q) cells c h
  · intro modules m q src c h1 h2
    simp [read_cell, h1, h2]

/-- Counterexample to C5 as stated: with module `b` absent, `read_cell`
prints only the fixed error line — the output never mentions the available
module ids (here `a`), and the word `Available` does not occur in it. -/
theorem read_cell_missing_module_counterexample :
    read_cell [("a", "x")] "b" "c" =
      (["Error: Module " ++ sq ++ "b" ++ sq ++ " not found"], 1) ∧
    occursIn "Available".data (String.join (read_cell [("a", "x")] "b" "c").1).data = false ∧
    occursIn "a".data (String.join (read_cell [("a", "x")] "b" "c").1).data = false := by
  refine ⟨?_, ?_, ?_⟩ <;> decide

/-- **C5 (amended).** For a module id absent from the mapping, all three
read/list commands print a distinguishable error and exit non-zero, but
only `list-cells` additionally lists the available module ids; `read-cell`
and `read-module` print only the error line. -/
theorem missing_module_commands (modules : List (String × String)) (m q : String)
    (h : dictGet? modules m = none) :
    list_cells modules m =
      (["Error: Module " ++ sq ++ m ++ sq ++ " not found",
        "Available modules: " ++ String.intercalate ", " (sortStrings (modules.map Prod.fst))], 1) ∧
    read_cell modules m q = (["Error: Module " ++ sq ++ m ++ sq ++ " not found"], 1) ∧
    read_module modules m = (["Error: Module " ++ sq ++ m ++ sq ++ " not found"], 1) := by
  refine ⟨?_, ?_, ?_⟩ <;> simp [list_cells, read_cell, read_module, h]

/-! ## Witnesses for the Markup Extractor and command claims -/

/-- Witness for C2: two distinct ids give two entries; a duplicated id keeps
the later content. -/
theorem parseDoc_modules_spec_witness :
    (parseDoc docDistinct).modules.length = (moduleIds docDistinct).length ∧
    dictGet? (parseDoc docDup).modules "m" = lastModuleContent docDup "m" ∧
    dictGet? (parseDoc docDup).modules "m" = some "two" :=
  ⟨(parseDoc_modules_spec docDistinct).1 (by decide),
   (parseDoc_modules_spec docDup).2 "m" (by decide),
   ((parseDoc_modules_spec docDup).2 "m" (by decide)).trans (by decide)⟩

/-- Witness for C8: a module block with no `id` attribute is filed under
`"unknown"`; a file block with only a `type` attribute gets empty-string
fields. -/
theorem handle_endtag_missing_attrs_witness :
    ((handle_endtag ⟨[], [], some "script", [("type", "lope-module")], ["body"]⟩ "script").modules =
      dictInsert [] "unknown" (String.join ["body"])) ∧
    ((handle_endtag ⟨[], [], some "script", [("type", "lope-file")], ["xy"]⟩ "script").files =
      [] ++ [{ id := attrsGet [("type", "lope-file")] "id" "",
               module := attrsGet [("type", "lope-file")] "module" "",
               file := attrsGet [("type", "lope-file")] "file" "",
               mime := attrsGet [("type", "lope-file")] "mime" "",
               size := (String.join ["xy"]).length }]) ∧
    attrsGet [("type", "lope-file")] "id" "" = "" :=
  ⟨(handle_endtag_missing_attrs ⟨[], [], some "script", [("type", "lope-module")], ["body"]⟩
      rfl).1 (by decide) (by intro v; simp),
   ((handle_endtag_missing_attrs ⟨[], [], some "script", [("type", "lope-file")], ["xy"]⟩
      rfl).2 (by decide)).1,
   ((handle_endtag_missing_attrs ⟨[], [], some "script", [("type", "lope-file")], ["xy"]⟩
      rfl).2 (by decide)).2.1 (by intro v; simp)⟩

/-- Witness for C4: for query `_ab`, the earlier substring match `_abc` wins
over the later exact match `_ab`. -/
theorem read_cell_first_match_witness :
    findCell (extract_cells srcTwoCells) "_ab" = some cellAbc ∧
    cellAbc.name ≠ "_ab" ∧
    (∃ c ∈ extract_cells srcTwoCells, c.name = "_ab") ∧
    (∃ l1 l2, extract_cells srcTwoCells = l1 ++ cellAbc :: l2 ∧
      cellMatches "_ab" cellAbc = true ∧ ∀ c2 ∈ l1, cellMatches "_ab" c2 = false) ∧
    read_cell [("mod", srcTwoCells)] "mod" "_ab" =
      ([sliceStr srcTwoCells cellAbc.start cellAbc.endPos], 0) :=
  ⟨by decide, by decide, by decide,
   read_cell_first_match.1 (extract_cells srcTwoCells) "_ab" cellAbc (by decide),
   read_cell_first_match.2 [("mod", srcTwoCells)] "mod" "_ab" srcTwoCells cellAbc
     (by decide) (by decide)⟩

/-- Witness for the amended C5 at a concrete mapping. -/
theorem missing_module_commands_witness :
    dictGet? [("a", "x")] "b" = none ∧
    (list_cells [("a", "x")] "b" =
      (["Error: Module " ++ sq ++ "b" ++ sq ++ " not found",
        "Available modules: " ++ String.intercalate ", " (sortStrings ([("a", "x")].map Prod.fst))], 1) ∧
    read_cell [("a", "x")] "b" "q" = (["Error: Module " ++ sq ++ "b" ++ sq ++ " not found"], 1) ∧
    read_module [("a", "x")] "b" = (["Error: Module " ++ sq ++ "b" ++ sq ++ " not found"], 1)) :=
  ⟨by decide, missing_module_commands [("a", "x")] "b" "q" (by decide)⟩

/-! ## Claim theorems about the Cell Scanner -/

/-- **C9.** Every descriptor returned by `extract_cells` has a well-formed
byte range: `0 ≤ start < end ≤ length`, the slice `text[start:end]` begins
with the keyword `const`, and the preview has at most 203 characters
(200 plus the 3-character marker). -/
theorem extract_cells_range_wf (src : String) (c : Cell) (hc : c ∈ extract_cells src) :
    c.start < c.endPos ∧ c.endPos ≤ src.length ∧
    ((src.data.take c.endPos).drop c.start).take 5 = cConst ∧
    c.preview.length ≤ 203 := by
  have hok := extract_cells_sound src c hc
  obtain ⟨hb1, hb2⟩ := cell_bounds hok
  obtain ⟨name, deps, rest, u, hmatch, hu, hhe, hrest, hend, hname, hdeps, hprev⟩ :=
    cellOk_unpack hok
  refine ⟨by omega, hb2, ?_, ?_⟩
  · rw [slice_eq_content, List.take_take]
    have hmin : min 5 (c.endPos - c.start) = 5 := by omega
    rw [hmin, hu, List.append_assoc]
    have h5 : (5 : Nat) = cConst.length := rfl
    rw [h5, List.take_left]
  · rw [hprev]
    exact previewOf_length_le _

/-- **C7.** A cell whose full text has at most 200 characters gets that text
unchanged as its preview; longer text is truncated to the first 200
characters followed by the `...` marker. -/
theorem extract_cells_preview_rule (src : String) (c : Cell) (hc : c ∈ extract_cells src) :
    (((src.data.take c.endPos).drop c.start).length ≤ 200 →
      c.preview = String.mk ((src.data.take c.endPos).drop c.start)) ∧
    (200 < ((src.data.take c.endPos).drop c.start).length →
      c.preview = String.mk (((src.data.take c.endPos).drop c.start).take 200) ++ "...") := by
  obtain ⟨hstart, name, deps, rest, hmatch, hrest, hend, hname, hdeps, hprev⟩ :=
    extract_cells_sound src c hc
  rw [slice_eq_content]
  constructor
  · intro hlen
    rw [hprev]
    unfold previewOf
    rw [if_neg (by omega)]
  · intro hlen
    rw [hprev]
    unfold previewOf
    rw [if_pos (by omega)]

/-- **C6.** The dependency list of every matched cell is obtained from the
captured parameter text by splitting on commas, trimming each piece, and
discarding empty pieces, order preserved; no empty string survives. -/
theorem extract_cells_dependency_parsing (src : String) (c : Cell)
    (hc : c ∈ extract_cells src) :
    ∃ name deps rest,
      matchCellHeader (src.data.drop c.start) = some (name, deps, rest) ∧
      c.dependencies = ((splitCommas deps).map pyStrip).filterMap
        (fun d => if d.isEmpty then none else some (String.mk d)) ∧
      "" ∉ c.dependencies := by
  obtain ⟨hstart, name, deps, rest, hmatch, hrest, hend, hname, hdeps, hprev⟩ :=
    extract_cells_sound src c hc
  refine ⟨name, deps, rest, hmatch, ?_, ?_⟩
  · rw [hdeps, parseDeps_filterMap]
  · rw [hdeps]
    exact parseDeps_no_empty deps

/-- **C10.** `extract_cells` is deterministic and stateless: equal inputs
give equal outputs, and in a batch of documents each result depends only on
that document, not on the others. -/
theorem extract_cells_deterministic :
    (∀ s1 s2 : String, s1 = s2 → extract_cells s1 = extract_cells s2) ∧
    (∀ (docs : List String) (i : Nat) (h : i < docs.length),
      (docs.map extract_cells).get ⟨i, by simpa using h⟩ = extract_cells (docs.get ⟨i, h⟩)) := by
  constructor
  · intro s1 s2 h
    rw [h]
  · intro docs i h
    simp [List.get_eq_getElem]

/-- **C1.** The end offset of every cell is the position immediately after
the closing brace that balances the opening brace matched at the end of the
header, found by depth counting from 1: every position strictly before it
has positive depth, and (whenever a balance point exists) the depth is zero
exactly at the end offset, whose preceding character is `}`; moreover the
end offset equals the start offset plus the length of the full matched
text. -/
theorem extract_cells_end_balances (src : String) (c : Cell) (hc : c ∈ extract_cells src) :
    ∃ hdrEnd,
      c.start < hdrEnd ∧ hdrEnd ≤ c.endPos ∧ c.endPos ≤ src.data.length ∧
      src.data[hdrEnd - 1]? = some '{' ∧
      (∀ j < c.endPos - hdrEnd, 0 < depthAt (src.data.drop hdrEnd) 1 j) ∧
      ((∃ k, k ≤ (src.data.drop hdrEnd).length ∧ depthAt (src.data.drop hdrEnd) 1 k = 0) →
        depthAt (src.data.drop hdrEnd) 1 (c.endPos - hdrEnd) = 0 ∧
        src.data[c.endPos - 1]? = some '}') ∧
      c.endPos = c.start + ((src.data.take c.endPos).drop c.start).length := by
  have hok := extract_cells_sound src c hc
  obtain ⟨hb1, hb2⟩ := cell_bounds hok
  obtain ⟨name, deps, rest, u, hmatch, hu, hhe, hrest, hend, hname, hdeps, hprev⟩ :=
    cellOk_unpack hok
  have hdrop : src.data.drop (c.start + (6 + u.length)) = rest := hrest.symm
  have hgel := braceScanAux_ge rest 1 (c.start + (6 + u.length))
  have hlel := braceScanAux_le rest 1 (c.start + (6 + u.length))
  have hrl : rest.length = src.data.length - (c.start + (6 + u.length)) := by
    rw [hrest]
    exact List.length_drop _ _
  refine ⟨c.start + (6 + u.length), by omega, by omega, hb2, ?_, ?_, ?_, ?_⟩
  · have hidx : c.start + (6 + u.length) - 1 = c.start + (5 + u.length) := by omega
    rw [hidx, ← List.getElem?_drop, hu]
    have hlen2 : (cConst ++ u).length = 5 + u.length := by
      rw [List.length_append]
      rfl
    rw [List.getElem?_append_right (by omega), hlen2]
    simp
  · intro j hj
    rw [hdrop]
    rw [hend] at hj
    exact (braceScanAux_depth rest 1 (c.start + (6 + u.length)) one_pos).1 j hj
  · intro hex
    obtain ⟨k, hkle, hk0⟩ := hex
    rw [hdrop] at hkle hk0
    obtain ⟨hp, hd⟩ := braceScanAux_depth rest 1 (c.start + (6 + u.length)) one_pos
    have hdz : depthAt rest 1 (c.endPos - (c.start + (6 + u.length))) = 0 := by
      rw [hend]
      rcases hd with h0 | hlen
      · exact h0
      · have hke : k = braceScanAux rest 1 (c.start + (6 + u.length)) - (c.start + (6 + u.length)) := by
          by_contra hne
          have hklt : k < braceScanAux rest 1 (c.start + (6 + u.length)) - (c.start + (6 + u.length)) := by
            omega
          have := hp k hklt
          omega
        rw [← hke]
        exact hk0
    have he1 : 1 ≤ c.endPos - (c.start + (6 + u.length)) := by
      by_contra hh
      have h0 : c.endPos - (c.start + (6 + u.length)) = 0 := by omega
      rw [h0, depthAt_zero] at hdz
      omega
    refine ⟨by rw [hdrop]; exact hdz, ?_⟩
    obtain ⟨hlt2, hch⟩ := balance_close rest 1 (c.endPos - (c.start + (6 + u.length))) one_pos
      (by rw [hend]; omega) hdz (fun j hj => hp j (by rw [hend] at hj; exact hj))
    have hidx2 : c.endPos - 1 = (c.start + (6 + u.length)) + (c.endPos - (c.start + (6 + u.length)) - 1) := by
      have : c.start + (6 + u.length) ≤ c.endPos := by omega
      omega
    rw [hidx2, ← List.getElem?_drop, hdrop, List.getElem?_eq_getElem hlt2]
    rw [List.get_eq_getElem] at hch
    rw [hch]
  · rw [slice_eq_content, List.length_take, List.length_drop]
    omega

/-- **C3.** The brace scan is total and in-bounds for every module text,
well-formed or not: the end offset never exceeds the text length; if the
depth never returns to zero the scan stops exactly at end-of-text, and
otherwise it stops at the first position where the depth reaches zero. -/
theorem extract_cells_malformed_safe (src : String) (c : Cell) (hc : c ∈ extract_cells src) :
    c.endPos ≤ src.data.length ∧
    ∃ hdrEnd, c.start < hdrEnd ∧ hdrEnd ≤ c.endPos ∧
      ((∀ k ≤ (src.data.drop hdrEnd).length, depthAt (src.data.drop hdrEnd) 1 k ≠ 0) →
        c.endPos = src.data.length) ∧
      (∀ k ≤ (src.data.drop hdrEnd).length, depthAt (src.data.drop hdrEnd) 1 k = 0 →
        (∀ j < k, depthAt (src.data.drop hdrEnd) 1 j ≠ 0) →
        c.endPos = hdrEnd + k) := by
  have hok := extract_cells_sound src c hc
  obtain ⟨hb1, hb2⟩ := cell_bounds hok
  obtain ⟨name, deps, rest, u, hmatch, hu, hhe, hrest, hend, hname, hdeps, hprev⟩ :=
    cellOk_unpack hok
  have hdrop : src.data.drop (c.start + (6 + u.length)) = rest := hrest.symm
  have hgel := braceScanAux_ge rest 1 (c.start + (6 + u.length))
  have hlel := braceScanAux_le rest 1 (c.start + (6 + u.length))
  have hrl : rest.length = src.data.length - (c.start + (6 + u.length)) := by
    rw [hrest]
    exact List.length_drop _ _
  obtain ⟨hp, hd⟩ := braceScanAux_depth rest 1 (c.start + (6 + u.length)) one_pos
  refine ⟨hb2, c.start + (6 + u.length), by omega, by omega, ?_, ?_⟩
  · intro hall
    rw [hdrop] at hall
    rcases hd with h0 | hlen
    · exfalso
      refine hall (braceScanAux rest 1 (c.start + (6 + u.length)) - (c.start + (6 + u.length)))
        (by omega) h0
    · omega
  · intro k hkle hk0 hmin
    rw [hdrop] at hkle hk0 hmin
    have hke : k = braceScanAux rest 1 (c.start + (6 + u.length)) - (c.start + (6 + u.length)) := by
      by_cases hlt : k < braceScanAux rest 1 (c.start + (6 + u.length)) - (c.start + (6 + u.length))
      · exfalso
        have := hp k hlt
        omega
      · by_cases hgt : braceScanAux rest 1 (c.start + (6 + u.length)) - (c.start + (6 + u.length)) < k
        · exfalso
          rcases hd with h0 | hlen
          · exact hmin _ hgt h0
          · omega
        · omega
    omega

/-! ## Witnesses for the Cell Scanner claims -/

/-- Witness for C9 at the spec's single-cell module. -/
theorem extract_cells_range_wf_witness :
    cellSimple ∈ extract_cells srcSimple ∧
    (cellSimple.start < cellSimple.endPos ∧ cellSimple.endPos ≤ srcSimple.length ∧
      ((srcSimple.data.take cellSimple.endPos).drop cellSimple.start).take 5 = cConst ∧
      cellSimple.preview.length ≤ 203) :=
  ⟨by decide, extract_cells_range_wf srcSimple cellSimple (by decide)⟩

/-- Witness for C7 at a 201-character and a 200-character cell body. -/
theorem extract_cells_preview_rule_witness :
    cellLong ∈ extract_cells srcLong ∧
    cellLong.preview =
      String.mk (((srcLong.data.take cellLong.endPos).drop cellLong.start).take 200) ++ "..." ∧
    cellLong200 ∈ extract_cells srcLong200 ∧
    cellLong200.preview = String.mk ((srcLong200.data.take cellLong200.endPos).drop cellLong200.start) :=
  ⟨by decide, (extract_cells_preview_rule srcLong cellLong (by decide)).2 (by decide),
   by decide, (extract_cells_preview_rule srcLong200 cellLong200 (by decide)).1 (by decide)⟩

/-- Witness for C6 at the spec's `function(a, , b)` example: the empty piece
is discarded and the dependency list is exactly `["a", "b"]`. -/
theorem extract_cells_dependency_parsing_witness :
    cellDeps ∈ extract_cells srcDeps ∧ cellDeps.dependencies = ["a", "b"] ∧
    (∃ name deps rest,
      matchCellHeader (srcDeps.data.drop cellDeps.start) = some (name, deps, rest) ∧
      cellDeps.dependencies = ((splitCommas deps).map pyStrip).filterMap
        (fun d => if d.isEmpty then none else some (String.mk d)) ∧
      "" ∉ cellDeps.dependencies) :=
  ⟨by decide, by decide, extract_cells_dependency_parsing srcDeps cellDeps (by decide)⟩

/-- Witness for C10 at concrete documents. -/
theorem extract_cells_deterministic_witness :
    extract_cells srcSimple = extract_cells srcSimple ∧
    ([srcNested, srcSimple].map extract_cells).get ⟨1, by decide⟩ =
      extract_cells ([srcNested, srcSimple].get ⟨1, by decide⟩) :=
  ⟨extract_cells_deterministic.1 srcSimple srcSimple rfl,
   extract_cells_deterministic.2 [srcNested, srcSimple] 1 (by decide)⟩

/-- Witness for C1 at the nested-braces example: the end offset `44` is the
position after the outermost closing brace (the whole string), not after
any inner brace. -/
theorem extract_cells_end_balances_witness :
    cellNested ∈ extract_cells srcNested ∧ cellNested.endPos = 44 ∧ srcNested.length = 44 ∧
    (∃ hdrEnd, cellNested.start < hdrEnd ∧ hdrEnd ≤ cellNested.endPos ∧
      cellNested.endPos ≤ srcNested.data.length ∧
      srcNested.data[hdrEnd - 1]? = some '{' ∧
      (∀ j < cellNested.endPos - hdrEnd, 0 < depthAt (srcNested.data.drop hdrEnd) 1 j) ∧
      ((∃ k, k ≤ (srcNested.data.drop hdrEnd).length ∧
          depthAt (srcNested.data.drop hdrEnd) 1 k = 0) →
        depthAt (srcNested.data.drop hdrEnd) 1 (cellNested.endPos - hdrEnd) = 0 ∧
        srcNested.data[cellNested.endPos - 1]? = some '}') ∧
      cellNested.endPos = cellNested.start +
        ((srcNested.data.take cellNested.endPos).drop cellNested.start).length) :=
  ⟨by decide, by decide, by decide, extract_cells_end_balances srcNested cellNested (by decide)⟩

/-- Witness for C3 at a truncated module: the scan stops at end-of-text. -/
theorem extract_cells_malformed_safe_witness :
    cellTrunc ∈ extract_cells srcTrunc ∧ cellTrunc.endPos = srcTrunc.length ∧
    (cellTrunc.endPos ≤ srcTrunc.data.length ∧
      ∃ hdrEnd, cellTrunc.start < hdrEnd ∧ hdrEnd ≤ cellTrunc.endPos ∧
        ((∀ k ≤ (srcTrunc.data.drop hdrEnd).length, depthAt (srcTrunc.data.drop hdrEnd) 1 k ≠ 0) →
          cellTrunc.endPos = srcTrunc.data.length) ∧
        (∀ k ≤ (srcTrunc.data.drop hdrEnd).length, depthAt (srcTrunc.data.drop hdrEnd) 1 k = 0 →
          (∀ j < k, depthAt (srcTrunc.data.drop hdrEnd) 1 j ≠ 0) →
          cellTrunc.endPos = hdrEnd + k)) :=
  ⟨by decide, by decide, extract_cells_malformed_safe srcTrunc cellTrunc (by decide)⟩

end LopeUtils
